import Mathlib

/-!
Verification development for the text-highlighting tool (syn.py and
ipp_syn/format_file.py).  Strings are modelled as `List Char`.  The
Python regular-expression engine is an external collaborator; it is
modelled here only on the fragment of regex syntax that the
normalizer emits for the verified properties (sequences of literal
characters, escaped literal characters, and simple character
classes).  Constructs outside that fragment make the model reject
the pattern.  Character classification (word characters) is modelled
over ASCII.
-/

/-- Convert a Lean string literal to the `List Char` representation. -/
def str (s : String) : List Char := s.data

/-- The apostrophe character, used by the error messages of the source. -/
def qc : Char := Char.ofNat 39

/-- Wrap a string in apostrophes, as the format-file code does with
the Python expression that surrounds a value with quote characters. -/
def quoted (s : List Char) : List Char := qc :: s ++ [qc]

/-- From format_file.py line 35: the reserved special symbols of the
pattern language. -/
def special_symbols : List Char := ['.', '|', '!', '*', '+', '(', ')', '%']

/-- Boolean membership test on characters, used by the engine model. -/
def memB : List Char → Char → Bool
  | [], _ => false
  | x :: r, c => c = x || memB r c

/-- From format_file.py line 38: the check for the pattern
re.search of a dot-dot run whose first dot is not preceded by a
percent sign.  The first argument is the character preceding the
current scan position in the original string (the lookbehind). -/
def fcd : Option Char → List Char → Bool
  | prev, c1 :: c2 :: rest =>
      if c1 = '.' && c2 = '.' && !(prev = some '%') then true
      else fcd (some c1) (c2 :: rest)
  | _, _ => false

/-- From format_file.py line 42: remove every dot that is not
preceded (in the original string) by a percent sign. -/
def stripDots : Option Char → List Char → List Char
  | prev, c :: rest =>
      if c = '.' && !(prev = some '%') then stripDots (some c) rest
      else c :: stripDots (some c) rest
  | _, [] => []

/-- From format_file.py line 43: put a backslash before every square
bracket. -/
def escBrackets : List Char → List Char
  | [] => []
  | c :: rest =>
      (if c = '[' || c = ']' then ['\\', c] else [c]) ++ escBrackets rest

/-- The abbreviation letters of format_file.py line 45. -/
def abbrevLetters : List Char := ['d', 'A', 'b', 'B', 'D', 's', 'S', 'w', 'W', 'Z']

/-- From format_file.py line 45: a backslash followed by an
abbreviation letter is replaced by the template, which expands to an
opening bracket, three backslashes, a closing bracket, and the
letter wrapped in brackets. -/
def escAbbrev : List Char → List Char
  | '\\' :: c :: rest =>
      if memB abbrevLetters c then
        '[' :: '\\' :: '\\' :: '\\' :: ']' :: '[' :: c :: ']' :: escAbbrev rest
      else '\\' :: escAbbrev (c :: rest)
  | c :: rest => c :: escAbbrev rest
  | [] => []

/-- The control-escape letters of format_file.py line 46. -/
def ctrlLetters : List Char := ['n', 't', 'r', 'v', 'x', 'a', 'b', '\\']

/-- From format_file.py line 46: a backslash followed by one of the
control letters is replaced by two backslashes and the letter. -/
def escCtrl : List Char → List Char
  | '\\' :: c :: rest =>
      if memB ctrlLetters c then '\\' :: '\\' :: c :: escCtrl rest
      else '\\' :: escCtrl (c :: rest)
  | c :: rest => c :: escCtrl rest
  | [] => []

/-- The anchor characters of format_file.py line 47. -/
def anchorChars : List Char := ['^', '$', '{', '}', '?']

/-- From format_file.py line 47: put a backslash before each anchor
character. -/
def escAnchors : List Char → List Char
  | [] => []
  | c :: rest =>
      (if memB anchorChars c then ['\\', c] else [c]) ++ escAnchors rest

/-- A two-character substitution scanner: each occurrence of a percent
sign followed by the pattern letter is replaced by the replacement
string.  Models the re.sub calls of format_file.py lines 49 to 57. -/
def sub2 (p : Char) (repl : List Char) : List Char → List Char
  | '%' :: c :: rest =>
      if c = p then repl ++ sub2 p repl rest
      else '%' :: sub2 p repl (c :: rest)
  | c :: rest => c :: sub2 p repl rest
  | [] => []

/-- From format_file.py lines 49 to 57, applied in source order.  The
replacement templates follow the replacement-string semantics the
program was written against: a backslash before s, W, w or d stays a
literal backslash (unknown template escape), while a backslash before
t or n denotes the tab or newline character. -/
def metaSubs (s : List Char) : List Char :=
  sub2 'n' (str "[\n]")
    (sub2 't' (str "[\t]")
      (sub2 'W' (str "[a-zA-Z\\d]")
        (sub2 'w' (str "[a-zA-Z]")
          (sub2 'L' (str "[A-Z]")
            (sub2 'l' (str "[a-z]")
              (sub2 'd' (str "[\\d]")
                (sub2 'a' (str "[\\W\\w]")
                  (sub2 's' (str "[\\s]") s))))))))

/-- From format_file.py line 59: the captured groups of the scan for
a percent sign not preceded by an exclamation mark and followed by
any character other than a newline, in match order. -/
def pctMatches : Option Char → List Char → List Char
  | prev, '%' :: c :: rest =>
      if !(prev = some '!') && !(c = '\n') then c :: pctMatches (some c) rest
      else pctMatches (some '%') (c :: rest)
  | prev, c :: rest => pctMatches (some c) rest
  | _, [] => []

/-- From format_file.py line 61: replace every occurrence of a
percent sign not preceded by an exclamation mark and followed by a
non-newline character with that character wrapped in brackets. -/
def pctSubAll : Option Char → List Char → List Char
  | prev, '%' :: c :: rest =>
      if !(prev = some '!') && !(c = '\n') then
        '[' :: c :: ']' :: pctSubAll (some c) rest
      else '%' :: pctSubAll (some '%') (c :: rest)
  | prev, c :: rest => c :: pctSubAll (some c) rest
  | _, [] => []

/-- The loop of format_file.py lines 59 to 64: iterate over the
matches found in the string as it was when the loop started; a
special-symbol group triggers the substitution on the current string,
any other group is an error. -/
def pctLoopGo : List Char → List Char → Except Unit (List Char)
  | [], cur => Except.ok cur
  | g :: gs, cur =>
      if memB special_symbols g then pctLoopGo gs (pctSubAll none cur)
      else Except.error ()

/-- The percent-escape validation loop applied to a string. -/
def pctLoop (s : List Char) : Except Unit (List Char) :=
  pctLoopGo (pctMatches none s) s

/-- From format_file.py line 66: an exclamation mark followed by an
opening bracket becomes a negated-class opener. -/
def negBracket : List Char → List Char
  | '!' :: '[' :: rest => '[' :: '^' :: negBracket rest
  | c :: rest => c :: negBracket rest
  | [] => []

/-- From format_file.py line 67: an exclamation mark not preceded by
an opening bracket and followed by a non-newline character that is
itself not followed by a closing bracket becomes a single-character
negated class. -/
def negSingle : Option Char → List Char → List Char
  | prev, '!' :: x :: rest =>
      if !(prev = some '[') && !(x = '\n') && !(rest.head? = some ']') then
        '[' :: '^' :: x :: ']' :: negSingle (some x) rest
      else '!' :: negSingle (some '!') (x :: rest)
  | prev, c :: rest => c :: negSingle (some c) rest
  | _, [] => []

/-- The dedicated error message of format_file.py line 40 and line 64:
it embeds the original source wrapped in apostrophes. -/
def msgInvalidRegex (src : List Char) : List Char :=
  str "invalid regex " ++ quoted src

/-- The generic engine-compile-failure message of format_file.py
line 73. -/
def msgInvalidRegexBang (src : List Char) : List Char :=
  str "invalid regex !!! " ++ quoted src

/-- The string-transformation part of _normalize_regex from
format_file.py lines 28 to 67: the consecutive-dot rejection followed
by the substitution pipeline in source order. -/
def normalizeStr (src : List Char) : Except (List Char) (List Char) :=
  if fcd none src then Except.error (msgInvalidRegex src)
  else
    let r1 := stripDots none src
    let r2 := escBrackets r1
    let r3 := escAbbrev r2
    let r4 := escCtrl r3
    let r5 := escAnchors r4
    let r6 := metaSubs r5
    match pctLoop r6 with
    | Except.error _ => Except.error (msgInvalidRegex src)
    | Except.ok r7 => Except.ok (negSingle none (negBracket r7))

/-- The regex-engine model: an atom matches exactly one character and
is either a literal or a character class. -/
inductive Atom where
  | lit (c : Char)
  | cls (neg : Bool) (mem : List Char)
deriving DecidableEq

/-- Whether an atom accepts a character. -/
def atomAccepts : Atom → Char → Bool
  | Atom.lit c, x => x = c
  | Atom.cls neg m, x => if neg then !(memB m x) else memB m x

/-- Engine model: parse the body of a character class, returning the
member characters and the input following the closing bracket.
Escaped members keep the escaped character; shorthand classes
(alphanumeric escapes) and ranges are outside the modelled fragment
and rejected. -/
def parseCls : List Char → Option (List Char × List Char)
  | [] => none
  | c :: rest =>
      if c = ']' then some ([], rest)
      else if c = '-' then none
      else if c = '\\' then
        match rest with
        | [] => none
        | c2 :: rest2 =>
            if c2.isAlphanum then none
            else (parseCls rest2).map (fun p => (c2 :: p.1, p.2))
      else (parseCls rest).map (fun p => (c :: p.1, p.2))

theorem parseCls_len (l : List Char) :
    ∀ m r, parseCls l = some (m, r) → r.length < l.length := by
  cases l with
  | nil => intro m r h; simp [parseCls] at h
  | cons c rest =>
    intro m r h
    rw [parseCls.eq_def] at h
    simp only [] at h
    split_ifs at h with h1 h2 h3
    · simp at h
      simp [h.2]
    · cases rest with
      | nil => simp at h
      | cons c2 rest2 =>
        simp only [] at h
        split_ifs at h with h4
        rcases Option.map_eq_some'.mp h with ⟨⟨m2, r2⟩, hp, he⟩
        have := parseCls_len rest2 m2 r2 hp
        simp at he
        simp [← he.2]
        omega
    · rcases Option.map_eq_some'.mp h with ⟨⟨m2, r2⟩, hp, he⟩
      have := parseCls_len rest m2 r2 hp
      simp at he
      simp [← he.2]
      omega
termination_by l.length
decreasing_by
  all_goals simp
  all_goals omega

/-- Characters that are special to the target engine at top level and
are never emitted unescaped by the normalizer on the verified
fragment; the engine model rejects them. -/
def reTop : List Char := ['*', '+', '?', '|', '(', ')', '{', '}', '^', '$', '.', ']']

/-- Engine model of re.compile on the emitted fragment: a sequence of
literal characters, escaped literal characters, and character
classes. -/
def parseRegex : List Char → Option (List Atom)
  | [] => some []
  | c :: rest =>
      if c = '\\' then
        match rest with
        | [] => none
        | c2 :: rest2 =>
            if c2.isAlphanum then none
            else (parseRegex rest2).map (fun a => Atom.lit c2 :: a)
      else if c = '[' then
        if rest.head? = some '^' then
          match h : parseCls rest.tail with
          | some (m, r2) => (parseRegex r2).map (fun a => Atom.cls true m :: a)
          | none => none
        else
          match h : parseCls rest with
          | some (m, r2) => (parseRegex r2).map (fun a => Atom.cls false m :: a)
          | none => none
      else if memB reTop c then none
      else (parseRegex rest).map (fun a => Atom.lit c :: a)
termination_by l => l.length
decreasing_by
  all_goals simp
  all_goals try omega
  all_goals have h9 := parseCls_len _ _ _ h
  all_goals have h10 := List.length_tail rest
  all_goals omega

/-- Full compilation: the normalization pipeline followed by the
engine compile; an engine rejection becomes the generic error that
names the original source. -/
def compileRegex (src : List Char) : Except (List Char) (List Atom) :=
  match normalizeStr src with
  | Except.error e => Except.error e
  | Except.ok r =>
      match parseRegex r with
      | some atoms => Except.ok atoms
      | none => Except.error (msgInvalidRegexBang src)

/-- Whether a list of atoms matches a text exactly. -/
def fullmatch : List Atom → List Char → Bool
  | [], [] => true
  | a :: as, c :: cs => atomAccepts a c && fullmatch as cs
  | _, _ => false

/-- Whether a list of atoms matches a prefix of the given text. -/
def atomsMatchAt : List Atom → List Char → Bool
  | [], _ => true
  | _ :: _, [] => false
  | a :: as, c :: cs => atomAccepts a c && atomsMatchAt as cs

/-- Engine model of the scan step of finditer: the smallest match
start at or after the given position. -/
def findFrom (r : List Atom) (text : List Char) (pos : Nat) : Option Nat :=
  (List.range (text.length + 1)).find?
    (fun s => decide (pos ≤ s) && atomsMatchAt r (text.drop s))

/-- Engine model of finditer: collect non-overlapping matches from
left to right, advancing past each match (and by one position past a
zero-width match).  The fuel is the number of remaining scan
positions and suffices because the position strictly increases. -/
def finditerGo (r : List Atom) (text : List Char) : Nat → Nat → List (Nat × Nat)
  | 0, _ => []
  | fuel + 1, pos =>
      match findFrom r text pos with
      | none => []
      | some s =>
          (s, s + r.length) ::
            finditerGo r text fuel (if r.length = 0 then s + 1 else s + r.length)

/-- All matches of a compiled pattern in a text, as spans. -/
def finditer (r : List Atom) (text : List Char) : List (Nat × Nat) :=
  finditerGo r text (text.length + 1) 0

/-- The attribute-free parameter names of format_file.py line 112. -/
def names : List (List Char) := [str "bold", str "italic", str "underline", str "teletype"]

/-- The attribute-taking parameter names of format_file.py line 113. -/
def names_with_attr : List (List Char) := [str "size", str "color"]

/-- The open tags of the map_tag dictionary of format_file.py
lines 114 to 121. -/
def mapTagOpen (n : List Char) : List Char :=
  if n = str "bold" then str "<b>"
  else if n = str "italic" then str "<i>"
  else if n = str "underline" then str "<u>"
  else if n = str "teletype" then str "<tt>"
  else if n = str "size" then str "<font size=*>"
  else str "<font color=#*>"

/-- The close tags of the map_tag dictionary. -/
def mapTagClose (n : List Char) : List Char :=
  if n = str "bold" then str "</b>"
  else if n = str "italic" then str "</i>"
  else if n = str "underline" then str "</u>"
  else if n = str "teletype" then str "</tt>"
  else str "</font>"

/-- From format_file.py line 158: replace every star of the template
with the attribute (the validated attributes contain no template
escapes, so plain substitution is exact). -/
def substStar (attr : List Char) : List Char → List Char
  | [] => []
  | c :: rest => (if c = '*' then attr else [c]) ++ substStar attr rest

/-- The digits accepted by the size-attribute pattern of
format_file.py line 146. -/
def sizeDigits : List Char := ['1', '2', '3', '4', '5', '6', '7']

/-- Model of re.match of the anchored single-digit pattern against
the attribute: the dollar anchor also matches just before a trailing
newline. -/
def matchSizeAttr : List Char → Bool
  | [c] => memB sizeDigits c
  | [c, n] => memB sizeDigits c && n = '\n'
  | _ => false

/-- The characters of the color-attribute class of format_file.py
line 150. -/
def hexUpper : List Char := str "0123456789ABCDEF"

/-- Model of re.match of the anchored six-hex-digit pattern against
the attribute: the dollar anchor also matches just before a trailing
newline. -/
def matchColorAttr (attr : List Char) : Bool :=
  (attr.take 6).length = 6 && (attr.take 6).all (memB hexUpper) &&
    (attr.drop 6 = [] || attr.drop 6 = ['\n'])

/-- Error message of format_file.py line 139. -/
def msgNoAttr (n : List Char) : List Char :=
  str "param " ++ quoted n ++ str " doesn" ++ [qc] ++ str "t have an attribute"

/-- Error message of format_file.py line 144 (the missing space
before the word require is present in the source). -/
def msgReqAttr (n : List Char) : List Char :=
  str "param " ++ quoted n ++ str "require an attribute"

/-- Error message of format_file.py line 148: the size range error. -/
def msgSizeRange : List Char :=
  [qc] ++ str "size" ++ [qc] ++ str " attribute should be a number in [1-7]"

/-- Error message of format_file.py line 153: the color range error. -/
def msgColorRange : List Char :=
  [qc] ++ str "color" ++ [qc] ++ str " attribute should be a hex number in [000000-FFFFFF]"

/-- Error message of format_file.py line 163. -/
def msgInvalidParam (n : List Char) : List Char :=
  str "invalid param " ++ quoted n

/-- Error message of format_file.py line 91. -/
def msgEmptyParam : List Char := str "param or attribute cannot be empty"

/-- A validated formatting parameter (class RegexParam of
format_file.py). -/
structure RegexParam where
  name : List Char
  attr : Option (List Char)
  open_tag : List Char
  close_tag : List Char
deriving DecidableEq

/-- The Python truthiness test not-attr: the attribute is missing or
the empty string. -/
def attrEmpty : Option (List Char) → Bool
  | none => true
  | some s => s.isEmpty

/-- RegexParam construction, format_file.py lines 123 to 163. -/
def mkRegexParam (nm : List Char) (attr : Option (List Char)) :
    Except (List Char) RegexParam :=
  if nm ∈ names then
    if attrEmpty attr then
      Except.ok ⟨nm, none, mapTagOpen nm, mapTagClose nm⟩
    else Except.error (msgNoAttr nm)
  else if nm ∈ names_with_attr then
    if attrEmpty attr then Except.error (msgReqAttr nm)
    else
      let a := attr.getD []
      if nm = str "size" ∧ matchSizeAttr a = false then
        Except.error msgSizeRange
      else if nm = str "color" ∧ matchColorAttr a = false then
        Except.error msgColorRange
      else Except.ok ⟨nm, some a, substStar a (mapTagOpen nm), mapTagClose nm⟩
  else Except.error (msgInvalidParam nm)

/-- ASCII model of the word-character class. -/
def isWordChar (c : Char) : Bool := c.isAlphanum || c = '_'

/-- Model of the dollar anchor at the end of an anchored match: the
remaining input is empty or a single trailing newline. -/
def dollarEnd (rest : List Char) : Bool := rest = [] || rest = ['\n']

/-- Model of re.match of the token pattern of format_file.py line 87
(an anchored word group optionally followed by a colon and a second
word group): returns the name group and the optional attribute
group. -/
def tokenMatch (t : List Char) : Option (List Char × Option (List Char)) :=
  let nm := t.takeWhile isWordChar
  let rest := t.dropWhile isWordChar
  if nm = [] then none
  else if dollarEnd rest then some (nm, none)
  else
    match rest with
    | ':' :: r2 =>
        let a := r2.takeWhile isWordChar
        let r3 := r2.dropWhile isWordChar
        if a = [] then none
        else if dollarEnd r3 then some (nm, some a)
        else none
    | _ => none

/-- The per-token body of the loop of format_file.py lines 86 to 101.
When the token pattern does not match, re.match returns None, so the
branch of line 94 that would name the token is unreachable (a match
object is always truthy): every malformed token produces the
cannot-be-empty message. -/
def parseParamToken (token : List Char) : Except (List Char) RegexParam :=
  match tokenMatch token with
  | none => Except.error msgEmptyParam
  | some (nm, a) => mkRegexParam nm a

/-- Tab or space, the separator run characters of the split pattern
of format_file.py line 86. -/
def isTS (c : Char) : Bool := c = '\t' || c = ' '

/-- Model of re.split of a comma followed by one or more tabs or
spaces: scan for separator matches and cut the string there. -/
theorem dropWhileLen (p : Char → Bool) (l : List Char) :
    (l.dropWhile p).length ≤ l.length :=
  (List.dropWhile_suffix p).length_le

def splitParamsGo (acc : List Char) : List Char → List (List Char)
  | [] => [acc.reverse]
  | ',' :: rest =>
      if rest.head?.any isTS then acc.reverse :: splitParamsGo [] (rest.dropWhile isTS)
      else splitParamsGo (',' :: acc) rest
  | c :: rest => splitParamsGo (c :: acc) rest
termination_by l => l.length
decreasing_by
  all_goals simp
  · have := dropWhileLen isTS rest
    omega

/-- Split a parameter-list string at the separators. -/
def splitParams (s : List Char) : List (List Char) := splitParamsGo [] s

/-- The function get_param_list of format_file.py lines 76 to 103,
applied to the token list: the first failing token aborts. -/
def get_param_list : List (List Char) → Except (List Char) (List RegexParam)
  | [] => Except.ok []
  | t :: ts =>
      match parseParamToken t with
      | Except.error e => Except.error e
      | Except.ok p =>
          match get_param_list ts with
          | Except.error e => Except.error e
          | Except.ok ps => Except.ok (p :: ps)

/-- A tag event: a character offset and the tag string to insert
there (syn.py lines 162 to 183). -/
abbrev Ev := Nat × List Char

/-- The character the sort key of syn.py lines 177 to 183 extracts
from a tag: the second character when it is a slash, the first
character otherwise.  Every tag of the program has at least two
characters, so the default is never consulted. -/
def keyChar (t : List Char) : Char :=
  if t.getD 1 ' ' = '/' then '/' else t.getD 0 ' '

/-- The composite sort key of an event: the offset, then the key
character (Python compares tuples lexicographically). -/
def evKey (e : Ev) : Nat × Nat := (e.1, (keyChar e.2).toNat)

/-- The lexicographic order on event keys used by the sort. -/
def keyLe (a b : Ev) : Prop :=
  (evKey a).1 < (evKey b).1 ∨ ((evKey a).1 = (evKey b).1 ∧ (evKey a).2 ≤ (evKey b).2)

instance : DecidableRel keyLe := fun a b => by unfold keyLe; exact inferInstance

/-- The line-break tag of syn.py. -/
def brTag : List Char := str "<br />"

/-- The event collection of syn.py lines 164 to 171 for a single
match span: one open event per parameter at the start offset and one
close event per parameter at the end offset, in parameter order. -/
def collectEvEntry (ps : List RegexParam) (sp : Nat × Nat)
    (acc : List Ev × List Ev) : List Ev × List Ev :=
  ps.foldl (fun a p => (a.1 ++ [(sp.1, p.open_tag)], a.2 ++ [(sp.2, p.close_tag)])) acc

/-- Event collection over the spans of one pattern: a span whose
matched text is empty is skipped (syn.py lines 166 to 167); for
engine-produced spans that is exactly an end not after the start. -/
def collectEvSpans (ps : List RegexParam) (spans : List (Nat × Nat))
    (acc : List Ev × List Ev) : List Ev × List Ev :=
  spans.foldl (fun a sp => if sp.2 ≤ sp.1 then a else collectEvEntry ps sp a) acc

/-- Event collection over the whole table, in declaration order. -/
def collectAll (table : List (List (Nat × Nat) × List RegexParam)) :
    List Ev × List Ev :=
  table.foldl (fun acc entry => collectEvSpans entry.2 entry.1 acc) ([], [])

/-- The merge of syn.py lines 173 to 183: the close events are
appended in reversed collection order and the whole queue is sorted
stably by the composite key (a stable sort is what the Python sorted
builtin guarantees; insertion sort with insertion before the first
not-smaller element is stable). -/
def sortEvents (oc : List Ev × List Ev) : List Ev :=
  List.insertionSort keyLe (oc.1 ++ oc.2.reverse)

/-- Concatenate the tags of a queue, as the final flush of syn.py
lines 195 to 197 writes them. -/
def joinTags : List Ev → List Char
  | [] => []
  | (_, t) :: q => t ++ joinTags q

/-- The while loop of syn.py lines 186 to 188: pop events from the
front of the queue while their offset equals the current index,
returning the concatenated tags and the remaining queue. -/
def popHere (i : Nat) : List Ev → List Char × List Ev
  | [] => ([], [])
  | (p, t) :: q =>
      if p = i then
        let r := popHere i q
        (t ++ r.1, r.2)
      else ([], (p, t) :: q)

/-- The output loop of syn.py lines 185 to 197: for each character,
first emit the events queued at the current index, then the optional
line-break tag before a newline, then the character; at the end of
the text flush the remaining queue. -/
def emitFrom (br : Bool) : Nat → List Ev → List Char → List Char
  | _, q, [] => joinTags q
  | i, q, c :: cs =>
      (popHere i q).1 ++ (if br && c = '\n' then brTag else []) ++
        c :: emitFrom br (i + 1) (popHere i q).2 cs

/-- The overlay pass over a table whose match spans have already been
computed. -/
def overlaySpans (text : List Char)
    (table : List (List (Nat × Nat) × List RegexParam)) (br : Bool) : List Char :=
  emitFrom br 0 (sortEvents (collectAll table)) text

/-- The full overlay pass of syn.py lines 162 to 197: scan each
pattern for its matches, collect events, sort, and emit. -/
def overlay (text : List Char) (table : List (List Atom × List RegexParam))
    (br : Bool) : List Char :=
  overlaySpans text (table.map (fun e => (finditer e.1 text, e.2))) br

/-- Insert the line-break tag before each newline when the flag is
set; emitting characters one at a time with the tag before each
newline (the emit loop) produces exactly this. -/
def brRender (br : Bool) : List Char → List Char
  | [] => []
  | c :: cs => (if br && c = '\n' then brTag else []) ++ c :: brRender br cs

/-- Model of the re.sub of syn.py lines 146 and 155: replace each
newline with the line-break tag followed by the newline. -/
def brSubNl : List Char → List Char
  | [] => []
  | c :: cs => (if c = '\n' then brTag ++ ['\n'] else [c]) ++ brSubNl cs

/-- The empty-format-file branch of syn.py lines 153 to 160: echo the
input, with the line-break substitution when the flag is set. -/
def emptyFormatOutput (br : Bool) (text : List Char) : List Char :=
  if br then brSubNl text else text

/-- Concatenation of a list of strings. -/
def joinL : List (List Char) → List Char
  | [] => []
  | g :: gs => g ++ joinL gs

/-- Interleave gap strings between the characters of a text: with one
more gap than there are characters, the result is gap, character,
gap, character, and so on, ending with the final gap. -/
def interleave : List (List Char) → List Char → List Char
  | gs, [] => joinL gs
  | [], c :: cs => c :: cs
  | g :: gs, c :: cs => g ++ c :: interleave gs cs

theorem memB_iff (l : List Char) (c : Char) : memB l c = true ↔ c ∈ l := by
  induction l with
  | nil => simp [memB]
  | cons x r ih => simp [memB, ih]

theorem fullmatch_lits (cs : List Char) :
    ∀ t, fullmatch (cs.map Atom.lit) t = true ↔ t = cs := by
  induction cs with
  | nil => intro t; cases t <;> simp [fullmatch]
  | cons c r ih =>
    intro t
    cases t with
    | nil => simp [fullmatch]
    | cons d t2 => simp [fullmatch, atomAccepts, ih]

theorem emit_no_events (br : Bool) :
    ∀ (i : Nat) (text : List Char), emitFrom br i [] text = brRender br text := by
  intro i text
  induction text generalizing i with
  | nil => simp [emitFrom, joinTags, brRender]
  | cons c cs ih => simp [emitFrom, popHere, brRender, ih]

theorem brRender_false (text : List Char) : brRender false text = text := by
  induction text with
  | nil => simp [brRender]
  | cons c cs ih => simp [brRender, ih]

theorem brRender_true (text : List Char) : brRender true text = brSubNl text := by
  induction text with
  | nil => simp [brRender, brSubNl]
  | cons c cs ih =>
    by_cases h : c = '\n' <;> simp [brRender, brSubNl, h, ih]

deriving instance DecidableEq for Except

/-- The compiled pattern for the source hello: five literal atoms. -/
def helloAtoms : List Atom := (str "hello").map Atom.lit

/-- The bold parameter as constructed by RegexParam. -/
def boldParam : RegexParam := ⟨str "bold", none, str "<b>", str "</b>"⟩

/-- C3: applying the overlay with an empty format table returns the
input unchanged when the line-break flag is off; when the flag is on
it returns the input with the line-break tag inserted immediately
before each newline character and no other change; the dedicated
empty-format-file branch produces the same result, and the input
a-newline-b yields a, the tag, the newline, then b. -/
theorem claim3_empty_table_roundtrip (text : List Char) :
    overlay text [] false = text ∧
    overlay text [] true = brSubNl text ∧
    emptyFormatOutput false text = text ∧
    emptyFormatOutput true text = brSubNl text ∧
    brSubNl (str "a\nb") = str "a<br />\nb" := by
  have h0 : ∀ br : Bool, overlay text [] br = brRender br text := by
    intro br
    exact emit_no_events br 0 text
  refine ⟨?_, ?_, rfl, rfl, by decide⟩
  · rw [h0, brRender_false]
  · rw [h0, brRender_true]

/-- C1: for the input hello and a format table binding the compiled
pattern for hello to the single parameter bold, with the line-break
flag off, the overlay produces exactly the open tag, the text, then
the close tag, the close being flushed at the end-of-text offset. -/
theorem claim1_hello_bold :
    mkRegexParam (str "bold") none = Except.ok boldParam ∧
    compileRegex (str "hello") = Except.ok helloAtoms ∧
    finditer helloAtoms (str "hello") = [(0, 5)] ∧
    overlay (str "hello") [(helloAtoms, [boldParam])] false = str "<b>hello</b>" := by
  refine ⟨by decide, ?_, by decide, by decide⟩
  have h1 : normalizeStr (str "hello") = Except.ok (str "hello") := by decide
  have h2 : parseRegex (str "hello") = some helloAtoms := by
    simp [parseRegex, str, helloAtoms, reTop, memB]
  simp [compileRegex, h1, h2]

/-- C9: compiling the source a-dot-b yields a pattern that matches
exactly the literal two-character text ab, the unescaped dot being
stripped as a no-op separator. -/
theorem claim9_dot_stripped :
    compileRegex (str "a.b") = Except.ok [Atom.lit 'a', Atom.lit 'b'] ∧
    ∀ t, fullmatch [Atom.lit 'a', Atom.lit 'b'] t = true ↔ t = str "ab" := by
  constructor
  · have h1 : normalizeStr (str "a.b") = Except.ok (str "ab") := by decide
    have h2 : parseRegex (str "ab") = some [Atom.lit 'a', Atom.lit 'b'] := by
      simp [parseRegex, str, reTop, memB]
    simp [compileRegex, h1, h2]
  · intro t
    exact fullmatch_lits (str "ab") t

theorem fcd_true_of_split (u : List Char) :
    ∀ (v : List Char) (prev : Option Char),
      (u = [] → prev ≠ some '%') → (∀ c, u.getLast? = some c → c ≠ '%') →
      fcd prev (u ++ '.' :: '.' :: v) = true := by
  induction u with
  | nil =>
    intro v prev h1 _
    have := h1 rfl
    simp [fcd, this]
  | cons a u2 ih =>
    intro v prev _ h2
    cases hu : u2 ++ '.' :: '.' :: v with
    | nil => exact absurd hu (by simp)
    | cons b rest =>
      have hstep : fcd prev (a :: u2 ++ '.' :: '.' :: v)
          = if a = '.' && b = '.' && !(prev = some '%') then true
            else fcd (some a) (b :: rest) := by
        rw [List.cons_append, hu, fcd]
      rw [hstep]
      by_cases hc : (a = '.' && b = '.' && !(prev = some '%')) = true
      · simp [hc]
      · rw [if_neg (by simpa using hc), ← hu]
        apply ih v (some a)
        · intro hu2
          subst hu2
          have : a ≠ '%' := h2 a (by simp)
          simp [this]
        · intro c hc2
          apply h2
          cases u2 with
          | nil => simp at hc2
          | cons d u3 => rw [List.getLast?_cons_cons]; exact hc2

/-- The shape of a source that contains two or more consecutive
literal dots whose first dot is not preceded by the escape marker:
the list splits around the dot pair and the preceding character, when
present, is not a percent sign. -/
def hasDD (src : List Char) : Prop :=
  ∃ u v : List Char, src = u ++ '.' :: '.' :: v ∧ ∀ c, u.getLast? = some c → c ≠ '%'

/-- C6: a source containing two or more consecutive unescaped literal
dots fails compilation with the dedicated error carrying the original
source, and that error differs from the generic
engine-compile-failure error on the same source. -/
theorem claim6_consecutive_dots (src : List Char) (h : hasDD src) :
    compileRegex src = Except.error (msgInvalidRegex src) ∧
    msgInvalidRegex src ≠ msgInvalidRegexBang src := by
  obtain ⟨u, v, heq, hlast⟩ := h
  constructor
  · have hf : fcd none src = true := by
      rw [heq]; exact fcd_true_of_split u v none (fun _ => by simp) hlast
    simp [compileRegex, normalizeStr, hf]
  · intro hcontra
    have h1 : (str "invalid regex ").length = 14 := rfl
    have h2 : (str "invalid regex !!! ").length = 18 := rfl
    have hl := congrArg List.length hcontra
    simp only [msgInvalidRegex, msgInvalidRegexBang, quoted, List.length_append,
      List.length_cons, h1, h2] at hl
    omega

/-- Witness for C6 at the concrete source of two dots. -/
theorem claim6_witness :
    compileRegex (str "..") = Except.error (msgInvalidRegex (str "..")) :=
  (claim6_consecutive_dots (str "..")
    ⟨[], [], rfl, by intro c hc; simp at hc⟩).1

theorem mk_error_forms (nm : List Char) (a : Option (List Char)) (e : List Char)
    (h : mkRegexParam nm a = Except.error e) :
    e = msgNoAttr nm ∨ e = msgReqAttr nm ∨ e = msgSizeRange ∨
    e = msgColorRange ∨ e = msgInvalidParam nm := by
  unfold mkRegexParam at h
  by_cases h1 : nm ∈ names
  · rw [if_pos h1] at h
    by_cases h2 : attrEmpty a = true
    · rw [if_pos h2] at h
      simp at h
    · rw [if_neg h2] at h
      simp at h
      tauto
  · rw [if_neg h1] at h
    by_cases h2 : nm ∈ names_with_attr
    · rw [if_pos h2] at h
      by_cases h3 : attrEmpty a = true
      · rw [if_pos h3] at h
        simp at h
        tauto
      · rw [if_neg h3] at h
        by_cases h4 : nm = str "size" ∧ matchSizeAttr (a.getD []) = false
        · rw [if_pos h4] at h
          simp at h
          tauto
        · rw [if_neg h4] at h
          by_cases h5 : nm = str "color" ∧ matchColorAttr (a.getD []) = false
          · rw [if_pos h5] at h
            simp at h
            tauto
          · rw [if_neg h5] at h
            simp at h
    · rw [if_neg h2] at h
      simp at h
      tauto

theorem tokenMatch_head (t nm : List Char) (a : Option (List Char))
    (h : tokenMatch t = some (nm, a)) :
    ∃ c r, t = c :: r ∧ isWordChar c = true := by
  cases t with
  | nil => simp [tokenMatch] at h
  | cons c r =>
    by_cases hw : isWordChar c = true
    · exact ⟨c, r, rfl, hw⟩
    · exfalso
      simp [tokenMatch, List.takeWhile_cons, hw] at h

/-- C7 counterexample: the non-empty token a-colon does not match the
token shape, yet parsing fails with the cannot-be-empty message, not
with the invalid-param message naming the token. -/
theorem claim7_counterexample :
    tokenMatch (str "a:") = none ∧
    str "a:" ≠ [] ∧
    parseParamToken (str "a:") = Except.error msgEmptyParam ∧
    parseParamToken (str "a:") ≠
      Except.error (str "invalid param " ++ str "a:") := by decide

/-- C7 amended: every token that does not match the shape fails with
the cannot-be-empty message regardless of whether it is empty, and
the invalid-param message naming the raw token is never produced,
because a failed match is always None and the naming branch is
unreachable. -/
theorem claim7_malformed_token (token : List Char) :
    (tokenMatch token = none → parseParamToken token = Except.error msgEmptyParam) ∧
    parseParamToken token ≠ Except.error (str "invalid param " ++ token) := by
  constructor
  · intro h; simp [parseParamToken, h]
  · cases htm : tokenMatch token with
    | none =>
      simp [parseParamToken, htm]
      intro hcontra
      have hh := congrArg List.head? hcontra
      have e1 : msgEmptyParam.head? = some 'p' := rfl
      have e2 : (str "invalid param " ++ token).head? = some 'i' := rfl
      rw [e1, e2] at hh
      simp at hh
    | some pr =>
      obtain ⟨nm, a⟩ := pr
      simp only [parseParamToken, htm]
      cases hmk : mkRegexParam nm a with
      | ok p => simp
      | error e =>
        simp only [ne_eq, Except.error.injEq]
        intro hcontra
        subst hcontra
        rcases mk_error_forms nm a _ hmk with h5 | h5 | h5 | h5 | h5
        · have hh := congrArg List.head? h5
          have e1 : (str "invalid param " ++ token).head? = some 'i' := rfl
          have e2 : (msgNoAttr nm).head? = some 'p' := rfl
          rw [e1, e2] at hh
          simp at hh
        · have hh := congrArg List.head? h5
          have e1 : (str "invalid param " ++ token).head? = some 'i' := rfl
          have e2 : (msgReqAttr nm).head? = some 'p' := rfl
          rw [e1, e2] at hh
          simp at hh
        · have hh := congrArg List.head? h5
          have e1 : (str "invalid param " ++ token).head? = some 'i' := rfl
          have e2 : msgSizeRange.head? = some qc := rfl
          rw [e1, e2] at hh
          simp at hh
          exact absurd hh.symm (by decide)
        · have hh := congrArg List.head? h5
          have e1 : (str "invalid param " ++ token).head? = some 'i' := rfl
          have e2 : msgColorRange.head? = some qc := rfl
          rw [e1, e2] at hh
          simp at hh
          exact absurd hh.symm (by decide)
        · have h6 : str "invalid param " ++ token = str "invalid param " ++ quoted nm := h5
          have h7 : token = quoted nm := by
            have hd := congrArg (List.drop 14) h6
            rw [show (14 : Nat) = (str "invalid param ").length from rfl] at hd
            rw [List.drop_left, List.drop_left] at hd
            exact hd
          obtain ⟨c, r, hcr, hwc⟩ := tokenMatch_head token nm a htm
          rw [hcr] at h7
          have : c = qc := by
            have := congrArg List.head? h7
            simpa [quoted] using this
          rw [this] at hwc
          exact absurd hwc (by decide)

/-- Witness for the amended C7 at the concrete token a-colon. -/
theorem claim7_witness :
    parseParamToken (str "a:") = Except.error msgEmptyParam :=
  (claim7_malformed_token (str "a:")).1 (by decide)

theorem matchSizeAttr_iff (attr : List Char) :
    matchSizeAttr attr = true ↔
      ∃ d, memB sizeDigits d = true ∧ (attr = [d] ∨ attr = [d, '\n']) := by
  constructor
  · intro h
    cases attr with
    | nil => simp [matchSizeAttr] at h
    | cons c t =>
      cases t with
      | nil =>
        simp [matchSizeAttr] at h
        exact ⟨c, h, Or.inl rfl⟩
      | cons n t2 =>
        cases t2 with
        | nil =>
          simp [matchSizeAttr] at h
          exact ⟨c, h.1, Or.inr (by rw [h.2])⟩
        | cons m t3 => simp [matchSizeAttr] at h
  · rintro ⟨d, hd, h | h⟩ <;> subst h <;> simp [matchSizeAttr, hd]

theorem matchColorAttr_iff (attr : List Char) :
    matchColorAttr attr = true ↔
      ∃ pre, (attr = pre ∨ attr = pre ++ ['\n']) ∧ pre.length = 6 ∧
        pre.all (memB hexUpper) = true := by
  unfold matchColorAttr
  constructor
  · intro h
    simp only [Bool.and_eq_true, Bool.or_eq_true, decide_eq_true_eq] at h
    obtain ⟨⟨h1, h2⟩, h3⟩ := h
    refine ⟨attr.take 6, ?_, h1, h2⟩
    rcases h3 with h3 | h3
    · left
      conv_lhs => rw [← List.take_append_drop 6 attr]
      rw [h3, List.append_nil]
    · right
      conv_lhs => rw [← List.take_append_drop 6 attr]
      rw [h3]
  · rintro ⟨pre, hpre, h6, hall⟩
    have htake : ∀ x : List Char, (pre ++ x).take 6 = pre := by
      intro x
      rw [show (6 : Nat) = pre.length from h6.symm]
      exact List.take_left pre x
    have hdrop : ∀ x : List Char, (pre ++ x).drop 6 = x := by
      intro x
      rw [show (6 : Nat) = pre.length from h6.symm]
      exact List.drop_left pre x
    rcases hpre with h | h
    · rw [h]
      have e1 : pre.take 6 = pre := by simpa using htake []
      have e2 : pre.drop 6 = [] := by simpa using hdrop []
      simp [e1, e2, h6, hall]
    · rw [h]
      simp [htake, hdrop, h6, hall]

theorem attrEmpty_false (attr : List Char) (hne : attr ≠ []) :
    attrEmpty (some attr) = false := by
  cases attr with
  | nil => exact absurd rfl hne
  | cons c t => rfl

theorem mk_size_cases (attr : List Char) (hne : attr ≠ []) :
    (matchSizeAttr attr = true ∧
      mkRegexParam (str "size") (some attr) =
        Except.ok ⟨str "size", some attr, substStar attr (str "<font size=*>"),
          str "</font>"⟩) ∨
    (matchSizeAttr attr = false ∧
      mkRegexParam (str "size") (some attr) = Except.error msgSizeRange) := by
  have h3 := attrEmpty_false attr hne
  unfold mkRegexParam
  rw [if_neg (by decide : ¬ (str "size") ∈ names),
    if_pos (by decide : (str "size") ∈ names_with_attr), if_neg (by simp [h3])]
  by_cases h4 : matchSizeAttr attr = true
  · left
    refine ⟨h4, ?_⟩
    rw [if_neg (by simp [h4]), if_neg (by intro hc; exact absurd hc.1 (by decide))]
    simp [show mapTagOpen (str "size") = str "<font size=*>" from by decide,
      show mapTagClose (str "size") = str "</font>" from by decide]
  · right
    refine ⟨by simpa using h4, ?_⟩
    rw [if_pos ⟨rfl, by simpa using h4⟩]

theorem mk_color_cases (attr : List Char) (hne : attr ≠ []) :
    (matchColorAttr attr = true ∧
      mkRegexParam (str "color") (some attr) =
        Except.ok ⟨str "color", some attr, substStar attr (str "<font color=#*>"),
          str "</font>"⟩) ∨
    (matchColorAttr attr = false ∧
      mkRegexParam (str "color") (some attr) = Except.error msgColorRange) := by
  have h3 := attrEmpty_false attr hne
  unfold mkRegexParam
  rw [if_neg (by decide : ¬ (str "color") ∈ names),
    if_pos (by decide : (str "color") ∈ names_with_attr), if_neg (by simp [h3]),
    if_neg (by intro hc; exact absurd hc.1 (by decide))]
  by_cases h4 : matchColorAttr attr = true
  · left
    refine ⟨h4, ?_⟩
    rw [if_neg (by simp [h4])]
    simp [show mapTagOpen (str "color") = str "<font color=#*>" from by decide,
      show mapTagClose (str "color") = str "</font>" from by decide]
  · right
    refine ⟨by simpa using h4, ?_⟩
    rw [if_pos ⟨rfl, by simpa using h4⟩]

/-- C8 counterexample: the attribute of a seven followed by a newline
is accepted for size (the anchored dollar of the attribute pattern
also matches just before a trailing newline), although it is not a
single digit. -/
theorem claim8_counterexample :
    (∃ p, mkRegexParam (str "size") (some (str "7\n")) = Except.ok p) ∧
    (str "7\n").length = 2 :=
  ⟨⟨⟨str "size", some (str "7\n"), str "<font size=7\n>", str "</font>"⟩,
    by decide⟩, by decide⟩

/-- C8 amended: constructing a size parameter with a present
attribute succeeds exactly when the attribute is a single digit one
to seven optionally followed by a trailing newline, and fails with
the size range error otherwise; a color parameter succeeds exactly
when the attribute is six uppercase hexadecimal digits optionally
followed by a trailing newline, and fails with the color range error
otherwise; the attributes of six zeros and of six letters F
succeed. -/
theorem claim8_size_color_ranges (attr : List Char) (hne : attr ≠ []) :
    ((∃ p, mkRegexParam (str "size") (some attr) = Except.ok p) ↔
      ∃ d, memB sizeDigits d = true ∧ (attr = [d] ∨ attr = [d, '\n'])) ∧
    (matchSizeAttr attr = false →
      mkRegexParam (str "size") (some attr) = Except.error msgSizeRange) ∧
    ((∃ p, mkRegexParam (str "color") (some attr) = Except.ok p) ↔
      ∃ pre, (attr = pre ∨ attr = pre ++ ['\n']) ∧ pre.length = 6 ∧
        pre.all (memB hexUpper) = true) ∧
    (matchColorAttr attr = false →
      mkRegexParam (str "color") (some attr) = Except.error msgColorRange) ∧
    (∃ p, mkRegexParam (str "color") (some (str "000000")) = Except.ok p) ∧
    (∃ p, mkRegexParam (str "color") (some (str "FFFFFF")) = Except.ok p) := by
  refine ⟨?_, ?_, ?_, ?_, ?_, ?_⟩
  · rw [← matchSizeAttr_iff]
    rcases mk_size_cases attr hne with ⟨hm, he⟩ | ⟨hm, he⟩
    · simp [he, hm]
    · simp [he, hm]
  · intro hm
    rcases mk_size_cases attr hne with ⟨hm2, _⟩ | ⟨_, he⟩
    · rw [hm] at hm2; exact absurd hm2 (by simp)
    · exact he
  · rw [← matchColorAttr_iff]
    rcases mk_color_cases attr hne with ⟨hm, he⟩ | ⟨hm, he⟩
    · simp [he, hm]
    · simp [he, hm]
  · intro hm
    rcases mk_color_cases attr hne with ⟨hm2, _⟩ | ⟨_, he⟩
    · rw [hm] at hm2; exact absurd hm2 (by simp)
    · exact he
  · exact ⟨⟨str "color", some (str "000000"), str "<font color=#000000>",
      str "</font>"⟩, by decide⟩
  · exact ⟨⟨str "color", some (str "FFFFFF"), str "<font color=#FFFFFF>",
      str "</font>"⟩, by decide⟩

/-- Witness for the amended C8 at the digit three. -/
theorem claim8_witness :
    ∃ p, mkRegexParam (str "size") (some (str "3")) = Except.ok p :=
  ((claim8_size_color_ranges (str "3") (by decide)).1).mpr
    ⟨'3', by decide, Or.inl rfl⟩

theorem fullmatch_cls_pair (m1 m2 : List Char) (a b : Char)
    (h1 : ∀ x, memB m1 x = true ↔ x = a) (h2 : ∀ x, memB m2 x = true ↔ x = b) :
    ∀ t, fullmatch [Atom.cls false m1, Atom.cls false m2] t = true ↔ t = [a, b] := by
  intro t
  cases t with
  | nil => simp [fullmatch]
  | cons c1 t1 =>
    cases t1 with
    | nil => simp [fullmatch, atomAccepts]
    | cons c2 t2 =>
      cases t2 with
      | nil => simp [fullmatch, atomAccepts, h1, h2]
      | cons c3 t3 => simp [fullmatch, atomAccepts]

theorem parseRegex_nil : parseRegex [] = some [] := by
  rw [parseRegex.eq_def]

theorem parseRegex_esc (c : Char) (rest : List Char) (h : c.isAlphanum = false) :
    parseRegex ('\\' :: c :: rest) = (parseRegex rest).map (fun a => Atom.lit c :: a) := by
  conv_lhs => rw [parseRegex.eq_def]
  simp [h]

theorem parseRegex_plain (c : Char) (rest : List Char) (h1 : c ≠ '\\')
    (h2 : c ≠ '[') (h3 : memB reTop c = false) :
    parseRegex (c :: rest) = (parseRegex rest).map (fun a => Atom.lit c :: a) := by
  conv_lhs => rw [parseRegex.eq_def]
  simp [h1, h2, h3]

theorem parseRegex_cls_eval (rest m r2 : List Char)
    (hne : rest.head? ≠ some '^') (hp : parseCls rest = some (m, r2)) :
    parseRegex ('[' :: rest) = (parseRegex r2).map (fun a => Atom.cls false m :: a) := by
  conv_lhs => rw [parseRegex.eq_def]
  simp only [hne, reduceIte]
  rw [if_neg (by decide : ¬ ('[' : Char) = '\\')]
  split
  next m2 r2b heq =>
    rw [hp] at heq
    injection heq with heq2
    injection heq2 with e1 e2
    rw [e1, e2]
  next heq =>
    rw [hp] at heq
    cases heq

theorem parse_abbrev_out (c : Char) (h1 : c ≠ '^') (h2 : c ≠ ']')
    (h3 : c ≠ '-') (h4 : c ≠ '\\') :
    parseRegex ('[' :: '\\' :: '\\' :: '\\' :: '\\' :: ']' :: '[' :: c :: ']' :: []) =
      some [Atom.cls false ['\\', '\\'], Atom.cls false [c]] := by
  have hp1 : parseCls ('\\' :: '\\' :: '\\' :: '\\' :: ']' :: '[' :: c :: ']' :: []) =
      some (['\\', '\\'], '[' :: c :: ']' :: []) := by
    simp [parseCls]
  have hp2 : parseCls (c :: ']' :: []) = some ([c], []) := by
    rw [parseCls.eq_def]
    simp [h2, h3, h4, parseCls]
  rw [parseRegex_cls_eval ('\\' :: '\\' :: '\\' :: '\\' :: ']' :: '[' :: c :: ']' :: [])
      ['\\', '\\'] ('[' :: c :: ']' :: []) (by simp) hp1,
    parseRegex_cls_eval (c :: ']' :: []) [c] [] (by simpa using h1) hp2,
    parseRegex_nil]
  rfl

/-- C5: for each backslash abbreviation letter, compiling the
two-character source backslash-letter yields a pattern of two
single-character classes that matches exactly the two-character
literal text backslash-letter: the abbreviation is not interpreted as
an engine shorthand class. -/
theorem claim5_backslash_abbrev (c : Char) (h : c ∈ abbrevLetters) :
    compileRegex ['\\', c] =
      Except.ok [Atom.cls false ['\\', '\\'], Atom.cls false [c]] ∧
    ∀ t, fullmatch [Atom.cls false ['\\', '\\'], Atom.cls false [c]] t = true ↔
      t = ['\\', c] := by
  constructor
  · have hp := parse_abbrev_out c (by fin_cases h <;> decide)
      (by fin_cases h <;> decide) (by fin_cases h <;> decide)
      (by fin_cases h <;> decide)
    have hn : normalizeStr ['\\', c] =
        Except.ok ('[' :: '\\' :: '\\' :: '\\' :: '\\' :: ']' :: '[' :: c :: ']' :: []) := by
      fin_cases h <;> decide
    simp [compileRegex, hn, hp]
  · exact fullmatch_cls_pair _ _ _ _ (fun x => by simp [memB])
      (fun x => by simp [memB])

/-- Witness for C5 at the letter d. -/
theorem claim5_witness :
    compileRegex ['\\', 'd'] =
      Except.ok [Atom.cls false ['\\', '\\'], Atom.cls false ['d']] :=
  (claim5_backslash_abbrev 'd' (by decide)).1

theorem emit_seg (br : Bool) :
    ∀ (cs ds : List Char) (i : Nat) (q : List Ev),
      (∀ p t, q.head? = some (p, t) → p < i ∨ i + cs.length ≤ p) →
      emitFrom br i q (cs ++ ds) = brRender br cs ++ emitFrom br (i + cs.length) q ds := by
  intro cs
  induction cs with
  | nil =>
    intro ds i q _
    simp [brRender]
  | cons c cs2 ih =>
    intro ds i q hcond
    have hpop : popHere i q = ([], q) := by
      cases q with
      | nil => rfl
      | cons ev q2 =>
        obtain ⟨p, t⟩ := ev
        have hne : p ≠ i := by
          rcases hcond p t rfl with hlt | hge
          · omega
          · simp at hge
            omega
        simp [popHere, hne]
    have hstep : emitFrom br i q ((c :: cs2) ++ ds) =
        (popHere i q).1 ++ (if br && c = '\n' then brTag else []) ++
          c :: emitFrom br (i + 1) (popHere i q).2 (cs2 ++ ds) := rfl
    rw [hstep, hpop]
    have hcond2 : ∀ p t, q.head? = some (p, t) → p < i + 1 ∨ (i + 1) + cs2.length ≤ p := by
      intro p t hh
      rcases hcond p t hh with hlt | hge
      · exact Or.inl (by omega)
      · simp at hge
        exact Or.inr (by omega)
    rw [ih ds (i + 1) q hcond2]
    have harith : (i + 1) + cs2.length = i + (c :: cs2).length := by
      simp
      omega
    rw [harith]
    simp [brRender]

theorem emit_pops (br : Bool) (i : Nat) (t : List Char) (q : List Ev)
    (c : Char) (cs : List Char) :
    emitFrom br i ((i, t) :: q) (c :: cs) = t ++ emitFrom br i q (c :: cs) := by
  have h1 : emitFrom br i ((i, t) :: q) (c :: cs) =
      (popHere i ((i, t) :: q)).1 ++ (if br && c = '\n' then brTag else []) ++
        c :: emitFrom br (i + 1) (popHere i ((i, t) :: q)).2 cs := rfl
  have h2 : emitFrom br i q (c :: cs) =
      (popHere i q).1 ++ (if br && c = '\n' then brTag else []) ++
        c :: emitFrom br (i + 1) (popHere i q).2 cs := rfl
  have h3 : popHere i ((i, t) :: q) = (t ++ (popHere i q).1, (popHere i q).2) := by
    simp [popHere]
  rw [h1, h2, h3]
  simp

theorem emit_closes (br : Bool) (e : Nat) (x y : List Char) :
    ∀ t2, emitFrom br e [(e, x), (e, y)] t2 = x ++ y ++ brRender br t2 := by
  intro t2
  cases t2 with
  | nil => simp [emitFrom, joinTags, brRender]
  | cons c cs =>
    have h1 : popHere e [(e, x), (e, y)] = (x ++ (y ++ []), []) := by
      simp [popHere]
    have h2 : emitFrom br e [(e, x), (e, y)] (c :: cs) =
        (popHere e [(e, x), (e, y)]).1 ++ (if br && c = '\n' then brTag else []) ++
          c :: emitFrom br (e + 1) (popHere e [(e, x), (e, y)]).2 cs := rfl
    rw [h2, h1, emit_no_events br (e + 1) cs]
    simp [brRender]

theorem substStar_keyChar (attr rest : List Char) :
    keyChar (substStar attr ('<' :: 'f' :: rest)) = '<' := by
  have h1 : substStar attr ('<' :: 'f' :: rest) =
      '<' :: 'f' :: substStar attr rest := by
    simp [substStar]
  rw [h1]
  rfl

theorem mk_tag_shape (nm : List Char) (a : Option (List Char)) (p : RegexParam)
    (h : mkRegexParam nm a = Except.ok p) :
    keyChar p.open_tag = '<' ∧ keyChar p.close_tag = '/' := by
  unfold mkRegexParam at h
  by_cases h1 : nm ∈ names
  · rw [if_pos h1] at h
    by_cases h2 : attrEmpty a = true
    · rw [if_pos h2] at h
      injection h with h3
      rw [← h3]
      have h4 : nm = str "bold" ∨ nm = str "italic" ∨ nm = str "underline" ∨
          nm = str "teletype" := by simpa [names] using h1
      rcases h4 with h5 | h5 | h5 | h5 <;> subst h5 <;> exact ⟨by decide, by decide⟩
    · rw [if_neg h2] at h
      simp at h
  · rw [if_neg h1] at h
    by_cases h2 : nm ∈ names_with_attr
    · rw [if_pos h2] at h
      by_cases h3 : attrEmpty a = true
      · rw [if_pos h3] at h
        simp at h
      · rw [if_neg h3] at h
        by_cases h4 : nm = str "size" ∧ matchSizeAttr (a.getD []) = false
        · rw [if_pos h4] at h
          simp at h
        · rw [if_neg h4] at h
          by_cases h5 : nm = str "color" ∧ matchColorAttr (a.getD []) = false
          · rw [if_pos h5] at h
            simp at h
          · rw [if_neg h5] at h
            injection h with h6
            rw [← h6]
            have h7 : nm = str "size" ∨ nm = str "color" := by
              simpa [names_with_attr] using h2
            rcases h7 with h8 | h8 <;> subst h8
            · constructor
              · have e1 : mapTagOpen (str "size") = '<' :: 'f' :: str "ont size=*>" := by
                  decide
                show keyChar (substStar (a.getD []) (mapTagOpen (str "size"))) = '<'
                rw [e1]
                exact substStar_keyChar _ _
              · show keyChar (mapTagClose (str "size")) = '/'
                decide
            · constructor
              · have e1 : mapTagOpen (str "color") = '<' :: 'f' :: str "ont color=#*>" := by
                  decide
                show keyChar (substStar (a.getD []) (mapTagOpen (str "color"))) = '<'
                rw [e1]
                exact substStar_keyChar _ _
              · show keyChar (mapTagClose (str "color")) = '/'
                decide
    · rw [if_neg h2] at h
      simp at h

theorem sortEvents_pair (s e : Nat) (o1 o2 cl1 cl2 : List Char) (hse : s < e)
    (ho1 : keyChar o1 = '<') (ho2 : keyChar o2 = '<')
    (hc1 : keyChar cl1 = '/') (hc2 : keyChar cl2 = '/') :
    sortEvents ([(s, o1), (s, o2)], [(e, cl1), (e, cl2)]) =
      [(s, o1), (s, o2), (e, cl2), (e, cl1)] := by
  unfold sortEvents
  have hl : (([(s, o1), (s, o2)] : List Ev) ++ ([(e, cl1), (e, cl2)] : List Ev).reverse) =
      [(s, o1), (s, o2), (e, cl2), (e, cl1)] := by simp
  rw [hl]
  apply List.Sorted.insertionSort_eq
  have k1 : keyLe (s, o1) (s, o2) := Or.inr ⟨rfl, by simp [evKey, ho1, ho2]⟩
  have k2 : ∀ t t2 : List Char, keyLe (s, t) (e, t2) :=
    fun t t2 => Or.inl (by simpa [evKey] using hse)
  have k3 : keyLe (e, cl2) (e, cl1) := Or.inr ⟨rfl, by simp [evKey, hc1, hc2]⟩
  refine List.Pairwise.cons ?_ (List.Pairwise.cons ?_
    (List.Pairwise.cons ?_ (List.pairwise_singleton _ _)))
  · intro b hb
    simp at hb
    rcases hb with h | h | h <;> subst h
    · exact k1
    · exact k2 o1 cl2
    · exact k2 o1 cl1
  · intro b hb
    simp at hb
    rcases hb with h | h <;> subst h
    · exact k2 o2 cl2
    · exact k2 o2 cl1
  · intro b hb
    simp at hb
    subst hb
    exact k3

/-- C2: for a match span with two formatting parameters bound to the
pattern in declaration order, the overlay output is the text before
the span, the two open tags adjacent and in declaration order, the
matched text, the two close tags adjacent in reverse declaration
order, then the rest of the text. -/
theorem claim2_nesting (text : List Char) (s e : Nat)
    (n1 n2 : List Char) (a1 a2 : Option (List Char)) (p1 p2 : RegexParam) (br : Bool)
    (h1 : mkRegexParam n1 a1 = Except.ok p1)
    (h2 : mkRegexParam n2 a2 = Except.ok p2)
    (hse : s < e) (hel : e ≤ text.length) :
    overlaySpans text [([(s, e)], [p1, p2])] br =
      brRender br (text.take s) ++ p1.open_tag ++ p2.open_tag ++
      brRender br ((text.drop s).take (e - s)) ++
      p2.close_tag ++ p1.close_tag ++ brRender br (text.drop e) := by
  obtain ⟨ho1, hc1⟩ := mk_tag_shape n1 a1 p1 h1
  obtain ⟨ho2, hc2⟩ := mk_tag_shape n2 a2 p2 h2
  have hcoll : collectAll [([(s, e)], [p1, p2])] =
      ([(s, p1.open_tag), (s, p2.open_tag)],
        [(e, p1.close_tag), (e, p2.close_tag)]) := by
    simp [collectAll, collectEvSpans, collectEvEntry, show ¬ (e ≤ s) from by omega]
  have hsort := sortEvents_pair s e p1.open_tag p2.open_tag
    p1.close_tag p2.close_tag hse ho1 ho2 hc1 hc2
  unfold overlaySpans
  rw [hcoll, hsort]
  have hdecomp : text = text.take s ++ ((text.drop s).take (e - s) ++ text.drop e) := by
    have hd : (text.drop s).drop (e - s) = text.drop e := by
      rw [List.drop_drop]
      congr 1
      omega
    conv_lhs => rw [← List.take_append_drop s text]
    congr 1
    rw [← hd, List.take_append_drop]
  have hlen0 : (text.take s).length = s := by
    simp [List.length_take]
    omega
  have hlenm : ((text.drop s).take (e - s)).length = e - s := by
    simp [List.length_take, List.length_drop]
    omega
  conv_lhs => rw [hdecomp]
  rw [emit_seg br (text.take s) _ 0 _ (by
    intro p t hh
    simp at hh
    exact Or.inr (by rw [hlen0]; omega))]
  rw [show 0 + (text.take s).length = s from by rw [hlen0]; omega]
  obtain ⟨c, cs, hcc⟩ : ∃ c cs, (text.drop s).take (e - s) = c :: cs := by
    cases hx : (text.drop s).take (e - s) with
    | nil =>
      rw [hx] at hlenm
      simp at hlenm
      omega
    | cons c cs => exact ⟨c, cs, rfl⟩
  rw [hcc, List.cons_append, emit_pops, emit_pops, ← List.cons_append, ← hcc]
  rw [emit_seg br ((text.drop s).take (e - s)) (text.drop e) s _ (by
    intro p t hh
    simp at hh
    exact Or.inr (by rw [hlenm]; omega))]
  rw [show s + ((text.drop s).take (e - s)).length = e from by rw [hlenm]; omega]
  rw [emit_closes]
  simp [List.append_assoc]

/-- Witness for C2: bold and italic on the whole of a two-character
text produce properly nested adjacent tags. -/
theorem claim2_witness :
    overlaySpans (str "hi")
      [([(0, 2)], [⟨str "bold", none, str "<b>", str "</b>"⟩,
        ⟨str "italic", none, str "<i>", str "</i>"⟩])] false =
      str "<b><i>hi</i></b>" := by
  have h := claim2_nesting (str "hi") 0 2 (str "bold") (str "italic") none none
    ⟨str "bold", none, str "<b>", str "</b>"⟩
    ⟨str "italic", none, str "<i>", str "</i>"⟩ false
    (by decide) (by decide) (by decide) (by decide)
  rw [h]
  decide

theorem joinTags_length (q : List Ev) :
    (joinTags q).length = (q.map (fun ev => ev.2.length)).sum := by
  induction q with
  | nil => simp [joinTags]
  | cons ev q2 ih =>
    obtain ⟨p, t⟩ := ev
    simp [joinTags, ih]

theorem popHere_len (i : Nat) (q : List Ev) :
    (popHere i q).1.length + ((popHere i q).2.map (fun ev => ev.2.length)).sum =
      (q.map (fun ev => ev.2.length)).sum := by
  induction q with
  | nil => simp [popHere]
  | cons ev q2 ih =>
    obtain ⟨p, t⟩ := ev
    by_cases hp : p = i
    · simp [popHere, hp]
      omega
    · simp [popHere, hp]

theorem emit_shape (br : Bool) :
    ∀ (text : List Char) (i : Nat) (q : List Ev),
      ∃ gaps : List (List Char),
        gaps.length = text.length + 1 ∧
        emitFrom br i q text = interleave gaps text ∧
        (emitFrom br i q text).length =
          text.length + (q.map (fun ev => ev.2.length)).sum +
            (if br then 6 * text.count '\n' else 0) := by
  intro text
  induction text with
  | nil =>
    intro i q
    refine ⟨[joinTags q], by simp, ?_, ?_⟩
    · simp [interleave, joinL, emitFrom]
    · simp [emitFrom, joinTags_length]
  | cons c cs ih =>
    intro i q
    obtain ⟨gaps, hg1, hg2, hg3⟩ := ih (i + 1) (popHere i q).2
    have hstep : emitFrom br i q (c :: cs) =
        (popHere i q).1 ++ (if br && c = '\n' then brTag else []) ++
          c :: emitFrom br (i + 1) (popHere i q).2 cs := rfl
    refine ⟨((popHere i q).1 ++ (if br && c = '\n' then brTag else [])) :: gaps,
      by simp [hg1], ?_, ?_⟩
    · rw [hstep, hg2]
      simp [interleave, List.append_assoc]
    · rw [hstep]
      have hp := popHere_len i q
      have hbrtag : brTag.length = 6 := by decide
      cases br with
      | false => simp at hg3 ⊢; omega
      | true =>
        by_cases hc : c = '\n'
        · simp [hc, hbrtag, List.count_cons] at hg3 ⊢
          omega
        · simp [hc, List.count_cons] at hg3 ⊢
          omega

/-- The events the overlay pass collects for a text and a table: the
open events followed by the close events, in collection order. -/
def collectedEvents (text : List Char)
    (table : List (List Atom × List RegexParam)) : List Ev :=
  (collectAll (table.map (fun en => (finditer en.1 text, en.2)))).1 ++
    (collectAll (table.map (fun en => (finditer en.1 text, en.2)))).2

/-- C10: for every input text and every format table, the overlay
output is the input text with inserted gap strings interleaved
between consecutive input characters (so every input character
appears exactly once and in order), and the output length accounts
for every collected tag event exactly once plus the line-break
insertions. -/
theorem claim10_insert_only (text : List Char)
    (table : List (List Atom × List RegexParam)) (br : Bool) :
    ∃ gaps : List (List Char),
      gaps.length = text.length + 1 ∧
      overlay text table br = interleave gaps text ∧
      (overlay text table br).length =
        text.length + ((collectedEvents text table).map (fun ev => ev.2.length)).sum +
          (if br then 6 * text.count '\n' else 0) := by
  obtain ⟨gaps, hg1, hg2, hg3⟩ := emit_shape br text 0
    (sortEvents (collectAll (table.map (fun en => (finditer en.1 text, en.2)))))
  refine ⟨gaps, hg1, hg2, ?_⟩
  have hperm : List.Perm
      (sortEvents (collectAll (table.map (fun en => (finditer en.1 text, en.2)))))
      (collectedEvents text table) := by
    unfold sortEvents collectedEvents
    refine (List.perm_insertionSort keyLe _).trans ?_
    exact List.Perm.append_left _ (List.reverse_perm _)
  have hsum : ((sortEvents (collectAll (table.map
      (fun en => (finditer en.1 text, en.2))))).map (fun ev => ev.2.length)).sum =
      ((collectedEvents text table).map (fun ev => ev.2.length)).sum :=
    (hperm.map _).sum_eq
  rw [← hsum]
  exact hg3

/-- The characters a purely literal pattern-language source must
avoid: the escape marker, the backslash, and the operator symbols of
the pattern language, which the normalizer does not escape. -/
def forbiddenChars : List Char := ['%', '\\', '|', '!', '*', '+', '(', ')']

/-- Remove every dot (all dots of a percent-free source are
unescaped). -/
def removeDots : List Char → List Char
  | [] => []
  | c :: r => if c = '.' then removeDots r else c :: removeDots r

/-- The image of one literal character under the escaping passes of
the normalizer: brackets and anchor characters gain a backslash. -/
def c4img (c : Char) : List Char :=
  if memB ('[' :: ']' :: anchorChars) c then ['\\', c] else [c]

/-- The image of a literal string under the escaping passes. -/
def imgStr : List Char → List Char
  | [] => []
  | c :: r => c4img c ++ imgStr r

theorem removeDots_subset (l : List Char) : ∀ c, c ∈ removeDots l → c ∈ l := by
  induction l with
  | nil => intro c h; simp [removeDots] at h
  | cons x r ih =>
    intro c h
    by_cases hx : x = '.'
    · rw [removeDots, if_pos hx] at h
      exact List.mem_cons_of_mem _ (ih c h)
    · rw [removeDots, if_neg hx] at h
      rcases List.mem_cons.mp h with h2 | h2
      · exact h2 ▸ List.mem_cons_self _ _
      · exact List.mem_cons_of_mem _ (ih c h2)

theorem removeDots_no_dot (l : List Char) : '.' ∉ removeDots l := by
  induction l with
  | nil => simp [removeDots]
  | cons x r ih =>
    by_cases hx : x = '.'
    · rw [removeDots, if_pos hx]
      exact ih
    · rw [removeDots, if_neg hx]
      intro h
      rcases List.mem_cons.mp h with h2 | h2
      · exact hx h2.symm
      · exact ih h2

theorem fcd_false (l : List Char) (h : ∀ u v : List Char, l ≠ u ++ '.' :: '.' :: v) :
    ∀ prev, fcd prev l = false := by
  induction l with
  | nil => intro prev; simp [fcd]
  | cons c1 tail ih =>
    intro prev
    cases tail with
    | nil => simp [fcd]
    | cons c2 rest =>
      by_cases ha : c1 = '.'
      · by_cases hb : c2 = '.'
        · exact absurd (by rw [ha, hb]; rfl) (h [] rest)
        · simp [fcd, hb]
          exact ih (fun u v hc => h (c1 :: u) v (by rw [List.cons_append, ← hc])) (some c1)
      · simp [fcd, ha]
        exact ih (fun u v hc => h (c1 :: u) v (by rw [List.cons_append, ← hc])) (some c1)

theorem stripDots_eq (l : List Char) (hl : '%' ∉ l) :
    ∀ prev, prev ≠ some '%' → stripDots prev l = removeDots l := by
  induction l with
  | nil => intro prev _; simp [stripDots, removeDots]
  | cons c r ih =>
    intro prev hprev
    have hcr : '%' ∉ r := fun hm => hl (List.mem_cons_of_mem _ hm)
    have hc : c ≠ '%' := fun hcc => hl (hcc ▸ List.mem_cons_self _ _)
    by_cases hdot : c = '.'
    · rw [stripDots, removeDots, if_pos hdot, if_pos (by simp [hdot, hprev])]
      exact ih hcr (some c) (by simp [hc])
    · rw [stripDots, removeDots, if_neg hdot, if_neg (by simp [hdot])]
      rw [ih hcr (some c) (by simp [hc])]

theorem escAbbrev_cons_ne (c : Char) (rest : List Char) (hc : c ≠ '\\') :
    escAbbrev (c :: rest) = c :: escAbbrev rest := by
  rw [escAbbrev.eq_def]
  split
  next x1 c2 rest2 heq =>
    exfalso
    apply hc
    injection heq with h1 h2
    try exact h1
  next x1 c2 rest2 hg heq =>
    injection heq with e1 e2
    rw [e1, e2]
  next x1 heq => simp at heq

theorem escCtrl_cons_ne (c : Char) (rest : List Char) (hc : c ≠ '\\') :
    escCtrl (c :: rest) = c :: escCtrl rest := by
  rw [escCtrl.eq_def]
  split
  next x1 c2 rest2 heq =>
    exfalso
    apply hc
    injection heq with h1 h2
    try exact h1
  next x1 c2 rest2 hg heq =>
    injection heq with e1 e2
    rw [e1, e2]
  next x1 heq => simp at heq

theorem escAbbrev_of_escBrackets (l : List Char) (h : '\\' ∉ l) :
    escAbbrev (escBrackets l) = escBrackets l := by
  induction l with
  | nil => rfl
  | cons c r ih =>
    have hcr : '\\' ∉ r := fun hm => h (List.mem_cons_of_mem _ hm)
    have hc : c ≠ '\\' := fun hcc => h (hcc ▸ List.mem_cons_self _ _)
    by_cases hb : (c = '[' || c = ']') = true
    · rcases (by simpa using hb : c = '[' ∨ c = ']') with hx | hx <;> subst hx <;>
        simp [escBrackets, escAbbrev, abbrevLetters, memB,
          escAbbrev_cons_ne _ _ (by decide : ('[' : Char) ≠ '\\'),
          escAbbrev_cons_ne _ _ (by decide : (']' : Char) ≠ '\\'), ih hcr]
    · rw [escBrackets, if_neg hb, List.singleton_append, escAbbrev_cons_ne c _ hc, ih hcr]

theorem escCtrl_of_escBrackets (l : List Char) (h : '\\' ∉ l) :
    escCtrl (escBrackets l) = escBrackets l := by
  induction l with
  | nil => rfl
  | cons c r ih =>
    have hcr : '\\' ∉ r := fun hm => h (List.mem_cons_of_mem _ hm)
    have hc : c ≠ '\\' := fun hcc => h (hcc ▸ List.mem_cons_self _ _)
    by_cases hb : (c = '[' || c = ']') = true
    · rcases (by simpa using hb : c = '[' ∨ c = ']') with hx | hx <;> subst hx <;>
        simp [escBrackets, escCtrl, ctrlLetters, memB,
          escCtrl_cons_ne _ _ (by decide : ('[' : Char) ≠ '\\'),
          escCtrl_cons_ne _ _ (by decide : (']' : Char) ≠ '\\'), ih hcr]
    · rw [escBrackets, if_neg hb, List.singleton_append, escCtrl_cons_ne c _ hc, ih hcr]

theorem escAnchors_of_escBrackets (l : List Char) (h : '\\' ∉ l) :
    escAnchors (escBrackets l) = imgStr l := by
  induction l with
  | nil => rfl
  | cons c r ih =>
    have hcr : '\\' ∉ r := fun hm => h (List.mem_cons_of_mem _ hm)
    by_cases hb : (c = '[' || c = ']') = true
    · rcases (by simpa using hb : c = '[' ∨ c = ']') with hx | hx <;> subst hx <;>
        simp [escBrackets, escAnchors, imgStr, c4img, memB, anchorChars, ih hcr]
    · have hnb : c ≠ '[' ∧ c ≠ ']' := by
        constructor <;> intro hx <;> subst hx <;> simp at hb
      have h1 : c4img c = if memB anchorChars c then ['\\', c] else [c] := by
        simp [c4img, memB, hnb.1, hnb.2]
      rw [escBrackets, if_neg hb, List.singleton_append, escAnchors, ih hcr, imgStr, h1]

theorem sub2_id (p : Char) (r : List Char) : ∀ s, '%' ∉ s → sub2 p r s = s := by
  intro s
  induction s with
  | nil => intro _; rfl
  | cons c rest ih =>
    intro h
    have hc : c ≠ '%' := by rintro rfl; exact h (by simp)
    have ht : '%' ∉ rest := fun hm => h (List.mem_cons_of_mem _ hm)
    rw [sub2.eq_def]
    split
    next x1 c2 rest2 heq =>
      exfalso
      apply hc
      injection heq with h1 h2
      try exact h1
    next x1 c2 rest2 hg heq =>
      injection heq with e1 e2
      rw [e1, e2]
      rw [← e2]
      rw [ih ht]
    next x1 heq => simp at heq

theorem pctMatches_nil (s : List Char) (h : '%' ∉ s) :
    ∀ prev, pctMatches prev s = [] := by
  induction s with
  | nil => intro _; rfl
  | cons c rest ih =>
    intro prev
    have hc : c ≠ '%' := by rintro rfl; exact h (by simp)
    have ht : '%' ∉ rest := fun hm => h (List.mem_cons_of_mem _ hm)
    rw [pctMatches.eq_def]
    split
    next x1 x2 c2 rest2 heq =>
      exfalso
      apply hc
      injection heq with h1 h2
      try exact h1
    next x1 x2 c2 rest2 hg heq =>
      injection heq with e1 e2
      rw [← e1, ← e2]
      exact ih ht _
    next x1 x2 heq => simp at heq

theorem negBracket_id (s : List Char) (h : '!' ∉ s) : negBracket s = s := by
  induction s with
  | nil => rfl
  | cons c rest ih =>
    have hc : c ≠ '!' := by rintro rfl; exact h (by simp)
    have ht : '!' ∉ rest := fun hm => h (List.mem_cons_of_mem _ hm)
    rw [negBracket.eq_def]
    split
    next x1 rest2 heq =>
      exfalso
      apply hc
      injection heq with h1 h2
      try exact h1
    next x1 c2 rest2 hg heq =>
      injection heq with e1 e2
      rw [e1, e2, ← e2, ih ht]
    next x1 heq => simp at heq

theorem negSingle_id (s : List Char) (h : '!' ∉ s) :
    ∀ prev, negSingle prev s = s := by
  induction s with
  | nil => intro _; rfl
  | cons c rest ih =>
    intro prev
    have hc : c ≠ '!' := by rintro rfl; exact h (by simp)
    have ht : '!' ∉ rest := fun hm => h (List.mem_cons_of_mem _ hm)
    rw [negSingle.eq_def]
    split
    next x1 x2 c2 rest2 heq =>
      exfalso
      apply hc
      injection heq with h1 h2
      try exact h1
    next x1 x2 c2 rest2 hg heq =>
      injection heq with e1 e2
      rw [e1, e2, ← e2, ih ht]
    next x1 x2 heq => simp at heq

theorem imgStr_not_mem (l : List Char) (x : Char) (hx1 : x ≠ '\\')
    (hx2 : x ∉ l) : x ∉ imgStr l := by
  induction l with
  | nil => simp [imgStr]
  | cons c r ih =>
    have hcr : x ∉ r := fun hm => hx2 (List.mem_cons_of_mem _ hm)
    have hc : x ≠ c := fun hcc => hx2 (hcc ▸ List.mem_cons_self _ _)
    intro hmem
    rw [imgStr] at hmem
    rcases List.mem_append.mp hmem with h1 | h1
    · unfold c4img at h1
      split_ifs at h1 <;> simp at h1 <;> tauto
    · exact ih hcr h1

theorem parse_imgStr : ∀ l : List Char, (∀ c ∈ l, c ∉ forbiddenChars) → '.' ∉ l →
    parseRegex (imgStr l) = some (l.map Atom.lit) := by
  intro l
  induction l with
  | nil => intro _ _; exact parseRegex_nil
  | cons c r ih =>
    intro h1 h2
    have hcr := fun c2 hc2 => h1 c2 (List.mem_cons_of_mem _ hc2)
    have h2r : '.' ∉ r := fun hm => h2 (List.mem_cons_of_mem _ hm)
    have hc : c ∉ forbiddenChars := h1 c (List.mem_cons_self _ _)
    have hcd : c ≠ '.' := fun hcc => h2 (hcc ▸ List.mem_cons_self _ _)
    have hcb : c ≠ '\\' := fun hcc => hc (by rw [hcc]; decide)
    by_cases hb : memB ('[' :: ']' :: anchorChars) c = true
    · have himg : imgStr (c :: r) = '\\' :: c :: imgStr r := by
        simp [imgStr, c4img, hb]
      have halnum : c.isAlphanum = false := by
        rcases (by simpa [memB_iff, anchorChars] using hb :
            c = '[' ∨ c = ']' ∨ c = '^' ∨ c = '$' ∨ c = '{' ∨ c = '}' ∨ c = '?')
          with hx | hx | hx | hx | hx | hx | hx <;> subst hx <;> decide
      rw [himg, parseRegex_esc c _ halnum, ih hcr h2r]
      rfl
    · have himg : imgStr (c :: r) = c :: imgStr r := by
        simp [imgStr, c4img, hb]
      have hcl : c ≠ '[' := fun hcc => hb (by rw [hcc]; decide)
      have hrt : memB reTop c = false := by
        by_contra hcon
        rcases (by simpa [memB_iff, reTop] using
            (by simpa using hcon : memB reTop c = true) :
            c = '*' ∨ c = '+' ∨ c = '?' ∨ c = '|' ∨ c = '(' ∨ c = ')' ∨
            c = '{' ∨ c = '}' ∨ c = '^' ∨ c = '$' ∨ c = '.' ∨ c = ']')
          with hx | hx | hx | hx | hx | hx | hx | hx | hx | hx | hx | hx <;> subst hx
        · exact hc (by decide)
        · exact hc (by decide)
        · exact hb (by decide)
        · exact hc (by decide)
        · exact hc (by decide)
        · exact hc (by decide)
        · exact hb (by decide)
        · exact hb (by decide)
        · exact hb (by decide)
        · exact hb (by decide)
        · exact hcd rfl
        · exact hb (by decide)
      rw [himg, parseRegex_plain c _ hcb hcl hrt, ih hcr h2r]
      rfl

theorem normalize_plain (src : List Char)
    (hch : ∀ c ∈ src, c ∉ forbiddenChars)
    (hnd : ∀ u v : List Char, src ≠ u ++ '.' :: '.' :: v) :
    normalizeStr src = Except.ok (imgStr (removeDots src)) := by
  have hnp : '%' ∉ src := fun hm => hch '%' hm (by decide)
  have hnb : '\\' ∉ src := fun hm => hch '\\' hm (by decide)
  have hne : '!' ∉ src := fun hm => hch '!' hm (by decide)
  have hnp2 : '%' ∉ removeDots src := fun hm => hnp (removeDots_subset src _ hm)
  have hnb2 : '\\' ∉ removeDots src := fun hm => hnb (removeDots_subset src _ hm)
  have hne2 : '!' ∉ removeDots src := fun hm => hne (removeDots_subset src _ hm)
  have hpimg : '%' ∉ imgStr (removeDots src) :=
    imgStr_not_mem _ '%' (by decide) hnp2
  have heimg : '!' ∉ imgStr (removeDots src) :=
    imgStr_not_mem _ '!' (by decide) hne2
  unfold normalizeStr
  rw [if_neg (by simp [fcd_false src hnd none])]
  have e1 : stripDots none src = removeDots src := stripDots_eq src hnp none (by simp)
  rw [e1]
  dsimp only
  rw [escAbbrev_of_escBrackets _ hnb2, escCtrl_of_escBrackets _ hnb2,
    escAnchors_of_escBrackets _ hnb2]
  have e5 : metaSubs (imgStr (removeDots src)) = imgStr (removeDots src) := by
    unfold metaSubs
    rw [sub2_id _ _ _ hpimg, sub2_id _ _ _ hpimg, sub2_id _ _ _ hpimg,
      sub2_id _ _ _ hpimg, sub2_id _ _ _ hpimg, sub2_id _ _ _ hpimg,
      sub2_id _ _ _ hpimg, sub2_id _ _ _ hpimg, sub2_id _ _ _ hpimg]
  rw [e5]
  have e6 : pctLoop (imgStr (removeDots src)) =
      Except.ok (imgStr (removeDots src)) := by
    unfold pctLoop
    rw [pctMatches_nil _ hpimg none]
    rfl
  rw [e6]
  dsimp only
  rw [negBracket_id _ heimg, negSingle_id _ heimg none]

theorem one_dot_no_dd (l : List Char) (h : l.count '.' < 2) :
    ∀ u v : List Char, l ≠ u ++ '.' :: '.' :: v := by
  intro u v heq
  have hc := congrArg (List.count '.') heq
  simp [List.count_append, List.count_cons] at hc
  omega

/-- C4: a pattern-language source made of literal characters only (no
escape marker, backslash, or pattern-language operator) and with no
two consecutive dots compiles to the sequence of literal atoms of the
source with its dots removed, and the compiled pattern matches
exactly that literal character sequence. -/
theorem claim4_literal_sources (src : List Char)
    (hch : ∀ c ∈ src, c ∉ forbiddenChars)
    (hnd : ∀ u v : List Char, src ≠ u ++ '.' :: '.' :: v) :
    compileRegex src = Except.ok ((removeDots src).map Atom.lit) ∧
    ∀ t, fullmatch ((removeDots src).map Atom.lit) t = true ↔ t = removeDots src := by
  constructor
  · have hn := normalize_plain src hch hnd
    have hp := parse_imgStr (removeDots src)
      (fun c hc => hch c (removeDots_subset src c hc)) (removeDots_no_dot src)
    simp [compileRegex, hn, hp]
  · exact fullmatch_lits _

/-- Witness for C4 at a source with a dot, a bracket, and plain
letters. -/
theorem claim4_witness :
    compileRegex (str "x.[y") = Except.ok ((removeDots (str "x.[y")).map Atom.lit) ∧
    fullmatch ((removeDots (str "x.[y")).map Atom.lit) (str "x[y") = true := by
  have h := claim4_literal_sources (str "x.[y") (by decide)
    (one_dot_no_dd _ (by decide))
  exact ⟨h.1, (h.2 (str "x[y")).mpr (by decide)⟩
